import Mathlib

/-!
# Verification of the Bayesian linear-regression notebook

Shallow embedding of `Bayesian_Linear_Regression_With_pymc3.ipynb`:
basis-function expansion (`polynomial_basis`, `gaussian_basis`, `_expand`,
`expand_polynomial`, `expand_gaussian`), the PyMC3 model block's log joint
density, posterior-predictive sampling, and the notebook's shared-tensor
state, together with theorems checking the specification's claims.

Matrices are lists of rows; numeric code over a commutative ring is kept
polymorphic so that witnesses can be evaluated over `ℤ`/`ℚ`, while the
density computations live over `ℝ`.
-/

namespace BLR

/-! ## Basis functions (notebook cell 2) -/

/-- `polynomial_basis(x, power) = x ** power`. -/
def polynomial_basis {α : Type} [Monoid α] (x : α) (power : ℕ) : α := x ^ power

/-- `gaussian_basis(x, mu, sigma) = norm(loc=mu, scale=sigma).pdf(x)`:
the scipy Normal density, `exp(-(x-mu)^2/(2*sigma^2)) / (sigma*sqrt(2*pi))`
(the `float32` cast is dropped; we work over `ℝ`). -/
noncomputable def gaussian_basis (x mu sigma : ℝ) : ℝ :=
  (1 / (sigma * Real.sqrt (2 * Real.pi))) * Real.exp (-(x - mu) ^ 2 / (2 * sigma ^ 2))

/-- `np.stack(cols, axis=1)` for a list of equal-length 1-d arrays:
the result has `len(cols[0])` rows and entry `(i, j) = cols[j][i]`.
`np.stack([], axis=1)` raises, so the empty case is handled by callers
(see `expandE`); here it returns `[]`. -/
def stack_axis1 {α : Type} [Inhabited α] (cols : List (List α)) : List (List α) :=
  match cols with
  | [] => []
  | c :: _ => (List.range c.length).map (fun i => cols.map (fun col => col.getD i default))

/-- `_expand(x, bf, bf_args) = np.stack([bf(x, a) for a in bf_args], axis=1)`.
Each `bf(x, a)` is the elementwise application of `bf` to the input vector. -/
def _expand {α β : Type} [Inhabited α] (x : List α) (bf : α → β → α) (bf_args : List β) :
    List (List α) :=
  stack_axis1 (bf_args.map (fun a => x.map (fun xi => bf xi a)))

/-- `expand_polynomial(x, degree)` uses powers `range(1, degree + 1)`. -/
def expand_polynomial {α : Type} [Monoid α] [Inhabited α] (x : List α) (degree : ℕ) :
    List (List α) :=
  _expand x polynomial_basis (List.range' 1 degree)

/-- `expand_gaussian(x, mus, sigma)` uses one Gaussian bump per center. -/
noncomputable def expand_gaussian (x : List ℝ) (mus : List ℝ) (sigma : ℝ) : List (List ℝ) :=
  _expand x (fun xi mu => gaussian_basis xi mu sigma) mus

/-! ## Failure behavior of the expansion (numpy/scipy semantics)

`np.stack([], axis=1)` raises `ValueError: need at least one array to
stack`; this is the only exception the expansion code can raise. In
particular `scipy.stats.norm(loc, scale).pdf` with `scale ≤ 0` raises
nothing (it yields `nan` values), so a non-positive bandwidth is not
rejected. -/

def isOk {ε α : Type} (e : Except ε α) : Bool :=
  match e with
  | Except.ok _ => true
  | Except.error _ => false

/-- `np.stack(cols, axis=1)` including its failure on an empty list. -/
def stack_axis1E {α : Type} [Inhabited α] (cols : List (List α)) :
    Except String (List (List α)) :=
  match cols with
  | [] => Except.error "need at least one array to stack"
  | c :: rest => Except.ok (stack_axis1 (c :: rest))

/-- `_expand` with its only failure mode (the `np.stack` of an empty list). -/
def expandE {α β : Type} [Inhabited α] (x : List α) (bf : α → β → α) (bf_args : List β) :
    Except String (List (List α)) :=
  stack_axis1E (bf_args.map (fun a => x.map (fun xi => bf xi a)))

/-- `expand_polynomial` with numpy's failure behavior. -/
def expand_polynomialE {α : Type} [Monoid α] [Inhabited α] (x : List α) (degree : ℕ) :
    Except String (List (List α)) :=
  expandE x polynomial_basis (List.range' 1 degree)

/-- `expand_gaussian` with numpy's failure behavior: the bandwidth is not
validated anywhere in the code. -/
noncomputable def expand_gaussianE (x : List ℝ) (mus : List ℝ) (sigma : ℝ) :
    Except String (List (List ℝ)) :=
  expandE x (fun xi mu => gaussian_basis xi mu sigma) mus

/-! ## The PyMC3 model block (notebook cell 8)

`w_0 ~ Normal(0, 10)`, `w_r ~ Normal(0, 10, shape=Phi.shape[1])`,
`mu = w_0 + w_r.dot(Phi_shared.T)`, `t_obs ~ Normal(mu, noise)` observed
at `t`. The model's log joint density is the sum of the log densities of
every random variable. -/

/-- Dot product of two real (or rational, integer, ...) vectors. -/
def dot {α : Type} [NonUnitalNonAssocSemiring α] (v u : List α) : α :=
  (List.zipWith (fun a b => a * b) v u).sum

/-- Log density of `Normal(mu, sigma)` at `x`. -/
noncomputable def logNormPdf (mu sigma x : ℝ) : ℝ :=
  -(x - mu) ^ 2 / (2 * sigma ^ 2) - Real.log (sigma * Real.sqrt (2 * Real.pi))

/-- The log joint density of the model block: prior `Normal(0, sigma_prior)`
on `w0` and on each component of `w`, plus the likelihood of the observed
targets `t` under `Normal(w0 + w.dot(row), sigma_obs)` row by row. The
notebook instantiates `sigma_prior = 10` and `sigma_obs = noise = 0.3`. -/
noncomputable def log_joint (sigma_prior sigma_obs : ℝ) (Phi : List (List ℝ)) (t : List ℝ)
    (w0 : ℝ) (w : List ℝ) : ℝ :=
  logNormPdf 0 sigma_prior w0
    + (w.map (fun wj => logNormPdf 0 sigma_prior wj)).sum
    + ((t.zip (Phi.map (fun row => w0 + dot w row))).map
        (fun p => logNormPdf p.2 sigma_obs p.1)).sum

/-- The mode of the `M = 0` posterior (which is Gaussian, so mode = mean):
`sigma_prior^2 * sum(t) / (sigma_obs^2 + N * sigma_prior^2)`. -/
noncomputable def w_star (sigma_prior sigma_obs : ℝ) (t : List ℝ) : ℝ :=
  sigma_prior ^ 2 * t.sum / (sigma_obs ^ 2 + (t.length : ℝ) * sigma_prior ^ 2)

/-! ## Posterior predictive sampling (notebook cell 14)

Modelled from the spec: `pm.sample_posterior_predictive` is framework code
not in the repository sources; per the spec, for each posterior sample
`(w0, w)` and each query design-matrix row `phi_k` it draws
`Normal(w0 + w.dot(phi_k), sigma_obs).sample()`, here represented in
location-scale form as the mean plus `sigma_obs` times a standard-normal
draw `z`. -/

/-- One predictive draw for posterior sample `(w0, w)`, query row `phi_row`
and standard-normal draw `z`. -/
def predictive_draw {α : Type} [NonUnitalNonAssocSemiring α] (w0 : α) (w : List α)
    (phi_row : List α) (sigma_obs z : α) : α :=
  (w0 + dot w phi_row) + sigma_obs * z

/-- The vector of predictive draws of one posterior sample over all query
rows, given one standard-normal draw per query point. -/
def predictive_sample {α : Type} [NonUnitalNonAssocSemiring α] (w0 : α) (w : List α)
    (Phi_new : List (List α)) (sigma_obs : α) (z : List α) : List α :=
  List.zipWith (fun row zk => predictive_draw w0 w row sigma_obs zk) Phi_new z

/-- The full predictive sample set: one row per (selected) posterior draw,
as in the `(5000, len(x_test))` array the notebook's
`pm.sample_posterior_predictive(..., samples=5000)['t_obs']` returns.
Each element of `draws` carries a posterior sample and its noise vector. -/
def posterior_predictive {α : Type} [NonUnitalNonAssocSemiring α]
    (draws : List ((α × List α) × List α)) (Phi_new : List (List α)) (sigma_obs : α) :
    List (List α) :=
  draws.map (fun d => predictive_sample d.1.1 d.1.2 Phi_new sigma_obs d.2)

/-- Modelled from the spec: `pm.sample` is framework code not in the
repository sources; the model block declares `w_r = pm.Normal(..., shape=
Phi.shape[1])`, so each posterior draw of `w_r` is a vector with one entry
per design-matrix column, represented by tabulating a draw over `range M`. -/
def sampler_w_draw {α : Type} (M : ℕ) (g : ℕ → α) : List α :=
  (List.range M).map g

/-! ## The sampler as a seeded deterministic process

Modelled from the spec: `pm.sample` is framework code not in the
repository sources; the spec requires the sampler to accept an explicit
random seed and to be a deterministic function of (seed, configuration,
data). The chain iterates a transition kernel fed by a seeded linear
congruential generator. -/

/-- A 32-bit linear congruential pseudo-random step. -/
def lcg (s : ℕ) : ℕ := (1664525 * s + 1013904223) % 2 ^ 32

/-- Sampler configuration: warm-up and kept draws. -/
structure SamplerConfig where
  warmup : ℕ
  draws : ℕ
deriving DecidableEq

/-- Iterate the transition kernel `n` times, threading the PRNG state. -/
def chain {σ : Type} (step : σ → ℕ → σ) : ℕ → σ → ℕ → List σ
  | 0, _, _ => []
  | n + 1, st, rng => step st rng :: chain step n (step st rng) (lcg rng)

/-- Modelled from the spec: the sampler run. The transition kernel `step`
abstracts one MCMC iteration over the model and data; the run is a pure
function of the kernel, the configuration, the initial state and the seed,
and discards the warm-up prefix. -/
def pm_sample {σ : Type} (step : σ → ℕ → σ) (cfg : SamplerConfig) (init : σ)
    (seed : ℕ) : List σ :=
  (chain step (cfg.warmup + cfg.draws) init (lcg seed)).drop cfg.warmup

/-! ## The notebook's shared state (cells 8 and 14)

`Phi_shared = shared(Phi)` is a theano shared tensor holding the design
matrix; `t` is the observed target vector. The prediction cell runs
`Phi_shared.set_value(expand(x_test))` before posterior predictive
sampling. -/

structure SharedState (α : Type) where
  Phi_shared : List (List α)
  t : List α
deriving DecidableEq

/-- `Phi_shared.set_value(v)`: replaces the design matrix in place. -/
def set_value {α : Type} (s : SharedState α) (v : List (List α)) : SharedState α :=
  { s with Phi_shared := v }

/-- Modelled from the spec: `pm.sample` / `pm.sample_posterior_predictive`
are framework code not in the repository sources; they read the shared
design matrix and the targets and mutate neither. -/
def pm_sample_effect {α : Type} (s : SharedState α) : SharedState α := s

/-- The notebook's prediction step: `Phi_shared.set_value(expand(x_test))`
followed by posterior predictive sampling (which reads but does not write
the shared state). -/
def prediction_step {α : Type} [Monoid α] [Inhabited α] (s : SharedState α)
    (x_test : List α) (degree : ℕ) : SharedState α :=
  set_value s (expand_polynomial x_test degree)

/-! ## Basic lemmas about the expansion -/

/-- `getD` commutes with `map` at in-range indices. -/
theorem getD_map {α β : Type} (l : List α) (f : α → β) (i : ℕ) (hi : i < l.length)
    (d : β) (d' : α) : (l.map f).getD i d = f (l.getD i d') := by
  rw [List.getD_eq_getElem?_getD, List.getD_eq_getElem?_getD, List.getElem?_map,
    List.getElem?_eq_getElem hi]
  rfl

/-- Reading a list through `range`/`getD` is just mapping over it. -/
theorem range_map_getD {α β : Type} (l : List α) (d : α) (f : α → β) :
    (List.range l.length).map (fun i => f (l.getD i d)) = l.map f := by
  induction l with
  | nil => rfl
  | cons a l ih =>
    simp only [List.length_cons, List.range_succ_eq_map, List.map_cons, List.getD_cons_zero,
      List.map_map]
    refine congrArg (f a :: ·) ?_
    rw [← ih]
    refine List.map_congr_left ?_
    intro i _
    show f ((a :: l).getD (i + 1) d) = f (l.getD i d)
    rw [List.getD_cons_succ]

/-- For a nonempty argument list, `_expand` is the row-major matrix whose
row `i` lists the basis functions applied to `x i`. -/
theorem _expand_eq_rows {α β : Type} [Inhabited α] (x : List α) (bf : α → β → α)
    (bf_args : List β) (h : bf_args ≠ []) :
    _expand x bf bf_args = x.map (fun xi => bf_args.map (fun a => bf xi a)) := by
  obtain ⟨a0, rest, rfl⟩ := List.exists_cons_of_ne_nil h
  unfold _expand stack_axis1
  simp only [List.map_cons]
  have hlen : (x.map (fun xi => bf xi a0)).length = x.length := List.length_map _ _
  rw [hlen]
  have hrow : ∀ i, i < x.length →
      ((x.map (fun xi => bf xi a0)) :: rest.map (fun a => x.map (fun xi => bf xi a))).map
          (fun col => col.getD i default)
        = (a0 :: rest).map (fun a => bf (x.getD i default) a) := by
    intro i hi
    simp only [List.map_cons, List.map_map]
    refine congrArg₂ (· :: ·) ?_ ?_
    · exact getD_map x (fun xi => bf xi a0) i hi default default
    · refine List.map_congr_left ?_
      intro a _
      exact getD_map x (fun xi => bf xi a) i hi default default
  calc (List.range x.length).map (fun i =>
          ((x.map (fun xi => bf xi a0)) :: rest.map (fun a => x.map (fun xi => bf xi a))).map
            (fun col => col.getD i default))
      = (List.range x.length).map (fun i => (a0 :: rest).map
          (fun a => bf (x.getD i default) a)) := by
        refine List.map_congr_left ?_
        intro i hi
        exact hrow i (List.mem_range.mp hi)
    _ = x.map (fun xi => (a0 :: rest).map (fun a => bf xi a)) :=
        range_map_getD x default (fun xi => (a0 :: rest).map (fun a => bf xi a))

/-! ## Claim C2: polynomial expansion -/

/-- C2: for every input sequence `xs` and every `degree ≥ 1`,
`expand_polynomial` returns an `xs.length × degree` matrix whose 1-indexed
column `j` (entry index `j - 1`, here `j + 1` with 0-indexed `j`) is `x ^ j`
elementwise; in particular no degree-0 (bias) column is present, since each
row has exactly `degree` entries, the powers `1 .. degree`. -/
theorem expand_polynomial_spec {α : Type} [Monoid α] [Inhabited α] (xs : List α)
    (degree : ℕ) (hd : 1 ≤ degree) :
    (expand_polynomial xs degree).length = xs.length ∧
    (∀ row ∈ expand_polynomial xs degree, row.length = degree) ∧
    ∀ i j : ℕ, i < xs.length → j < degree →
      ((expand_polynomial xs degree).getD i []).getD j default
        = (xs.getD i default) ^ (j + 1) := by
  have hargs : (List.range' 1 degree) ≠ [] := by
    intro hnil
    have : (List.range' 1 degree).length = 0 := by rw [hnil]; rfl
    rw [List.length_range'] at this
    omega
  have hrows := _expand_eq_rows xs polynomial_basis (List.range' 1 degree) hargs
  unfold expand_polynomial
  rw [hrows]
  refine ⟨List.length_map _ _, ?_, ?_⟩
  · intro row hrow
    obtain ⟨xi, _, rfl⟩ := List.mem_map.mp hrow
    rw [List.length_map, List.length_range']
  · intro i j hi hj
    rw [getD_map xs _ i hi [] default]
    have hj' : j < (List.range' 1 degree).length := by rw [List.length_range']; exact hj
    rw [getD_map (List.range' 1 degree) _ j hj' default 0]
    have : (List.range' 1 degree).getD j 0 = 1 + j := by
      rw [List.getD_eq_getElem?_getD, List.getElem?_eq_getElem hj']
      simp [List.getElem_range']
    rw [this]
    show (xs.getD i default) ^ (1 + j) = (xs.getD i default) ^ (j + 1)
    rw [Nat.add_comm]

/-- Witness for C2 at `xs = [2, 3]`, `degree = 2`, entry `(1, 1) = 3 ^ 2`. -/
theorem expand_polynomial_spec_witness :
    1 ≤ 2 ∧ ((expand_polynomial [(2 : ℤ), 3] 2).getD 1 []).getD 1 default
      = (([(2 : ℤ), 3]).getD 1 default) ^ (1 + 1) :=
  ⟨by decide,
    (expand_polynomial_spec [(2 : ℤ), 3] 2 (by decide)).2.2 1 1 (by decide) (by decide)⟩

/-! ## Claim C10: basis expansion is row-local -/

/-- C10: row `i` of the expansion of `xs` is the single row of the expansion
of `[xs i]`, and expanding a concatenation stacks the separate expansions. -/
theorem _expand_row_local {α β : Type} [Inhabited α] (xs ys : List α) (bf : α → β → α)
    (bf_args : List β) (i : ℕ) (h : bf_args ≠ []) (hi : i < xs.length) :
    (_expand xs bf bf_args).getD i []
      = (_expand [xs.getD i default] bf bf_args).getD 0 [] ∧
    _expand (xs ++ ys) bf bf_args = _expand xs bf bf_args ++ _expand ys bf bf_args := by
  constructor
  · rw [_expand_eq_rows xs bf bf_args h, _expand_eq_rows [xs.getD i default] bf bf_args h]
    rw [getD_map xs _ i hi [] default]
    rfl
  · rw [_expand_eq_rows (xs ++ ys) bf bf_args h, _expand_eq_rows xs bf bf_args h,
      _expand_eq_rows ys bf bf_args h, List.map_append]

/-- Witness for C10 at `xs = [2, 3]`, `ys = [4]`, polynomial basis, powers `[1, 2]`. -/
theorem _expand_row_local_witness :
    ([1, 2] : List ℕ) ≠ [] ∧ 1 < 2 ∧
    ((_expand [(2 : ℤ), 3] polynomial_basis [1, 2]).getD 1 []
        = (_expand [([(2 : ℤ), 3]).getD 1 default] polynomial_basis [1, 2]).getD 0 [] ∧
      _expand ([(2 : ℤ), 3] ++ [4]) polynomial_basis [1, 2]
        = _expand [(2 : ℤ), 3] polynomial_basis [1, 2]
          ++ _expand [(4 : ℤ)] polynomial_basis [1, 2]) :=
  ⟨by decide, by decide,
    _expand_row_local [(2 : ℤ), 3] [4] polynomial_basis [1, 2] 1 (by decide) (by decide)⟩

/-! ## Claim C3: Gaussian basis columns -/

theorem gaussian_coeff_pos (b : ℝ) (hb : 0 < b) : 0 < 1 / (b * Real.sqrt (2 * Real.pi)) := by
  have h1 : 0 < Real.sqrt (2 * Real.pi) := Real.sqrt_pos.mpr (by positivity)
  positivity

/-- The Gaussian bump strictly decreases as `|x - c|` grows. -/
theorem gaussian_basis_strict_anti (c b x y : ℝ) (hb : 0 < b)
    (h : |x - c| < |y - c|) : gaussian_basis y c b < gaussian_basis x c b := by
  unfold gaussian_basis
  refine mul_lt_mul_of_pos_left ?_ (gaussian_coeff_pos b hb)
  rw [Real.exp_lt_exp]
  have hsq : (x - c) ^ 2 < (y - c) ^ 2 := by
    rw [← sq_abs (x - c), ← sq_abs (y - c)]
    exact pow_lt_pow_left₀ h (abs_nonneg _) (by norm_num)
  have hden : (0 : ℝ) < 2 * b ^ 2 := by positivity
  rw [div_eq_mul_inv, div_eq_mul_inv]
  exact mul_lt_mul_of_pos_right (neg_lt_neg hsq) (inv_pos.mpr hden)

/-- The Gaussian bump attains its maximum at the center. -/
theorem gaussian_basis_le_center (c b x : ℝ) (hb : 0 < b) :
    gaussian_basis x c b ≤ gaussian_basis c c b := by
  unfold gaussian_basis
  refine mul_le_mul_of_nonneg_left ?_ (le_of_lt (gaussian_coeff_pos b hb))
  rw [Real.exp_le_exp]
  have h2 : -(c - c) ^ 2 / (2 * b ^ 2) = 0 := by simp
  rw [h2, neg_div]
  exact neg_nonpos.mpr (by positivity)

/-- The value of the Gaussian bump at its center is the normalization
constant `1 / (b * sqrt(2 * pi))`, not `1`. -/
theorem gaussian_basis_center (c b : ℝ) :
    gaussian_basis c c b = 1 / (b * Real.sqrt (2 * Real.pi)) := by
  unfold gaussian_basis
  simp

/-- C3 (amended): column `j` of the Gaussian design matrix is the scipy
Normal *density* `(1 / (b * sqrt(2 * pi))) * exp(-(x - c_j)^2 / (2 * b^2))`;
it attains its maximum value `1 / (b * sqrt(2 * pi))` at `x = c_j` and is
strictly decreasing as `|x - c_j|` grows. -/
theorem expand_gaussian_spec (xs mus : List ℝ) (b : ℝ) (hb : 0 < b) (i j : ℕ)
    (hi : i < xs.length) (hj : j < mus.length) :
    (((expand_gaussian xs mus b).getD i []).getD j 0
        = (1 / (b * Real.sqrt (2 * Real.pi)))
          * Real.exp (-(xs.getD i 0 - mus.getD j 0) ^ 2 / (2 * b ^ 2))) ∧
    gaussian_basis (mus.getD j 0) (mus.getD j 0) b = 1 / (b * Real.sqrt (2 * Real.pi)) ∧
    (∀ x : ℝ, gaussian_basis x (mus.getD j 0) b
        ≤ gaussian_basis (mus.getD j 0) (mus.getD j 0) b) ∧
    (∀ x y : ℝ, |x - mus.getD j 0| < |y - mus.getD j 0| →
      gaussian_basis y (mus.getD j 0) b < gaussian_basis x (mus.getD j 0) b) := by
  have hne : mus ≠ [] := List.ne_nil_of_length_pos (Nat.lt_of_le_of_lt (Nat.zero_le j) hj)
  refine ⟨?_, gaussian_basis_center _ b, fun x => gaussian_basis_le_center _ b x hb,
    fun x y h => gaussian_basis_strict_anti _ b x y hb h⟩
  unfold expand_gaussian
  rw [_expand_eq_rows xs _ mus hne]
  rw [getD_map xs _ i hi [] 0]
  rw [getD_map mus _ j hj 0 0]
  rfl

/-- Witness for C3's amended theorem at `xs = [0]`, `mus = [0]`, `b = 1`. -/
theorem expand_gaussian_spec_witness :
    (0 : ℝ) < 1 ∧ ((expand_gaussian [0] [0] 1).getD 0 []).getD 0 0
      = (1 / ((1 : ℝ) * Real.sqrt (2 * Real.pi)))
        * Real.exp (-(([(0 : ℝ)]).getD 0 0 - ([(0 : ℝ)]).getD 0 0) ^ 2 / (2 * 1 ^ 2)) :=
  ⟨one_pos, (expand_gaussian_spec [0] [0] 1 one_pos 0 0 (by simp) (by simp)).1⟩

/-- Counterexample to C3 as stated: with center `0` and bandwidth `1`, the
design-matrix entry at `x = 0` is `1 / sqrt(2 * pi) < 1`, not
`exp(-(0 - 0)^2 / (2 * 1^2)) = 1`: the code uses the *normalized* scipy pdf. -/
theorem expand_gaussian_counterexample :
    ((expand_gaussian [0] [0] 1).getD 0 []).getD 0 0
      ≠ Real.exp (-((0 : ℝ) - 0) ^ 2 / (2 * 1 ^ 2)) := by
  have hentry : expand_gaussian [0] [0] 1 = [[gaussian_basis 0 0 1]] := by
    unfold expand_gaussian
    rw [_expand_eq_rows _ _ _ (by simp)]
    rfl
  rw [hentry]
  have hrhs : Real.exp (-((0 : ℝ) - 0) ^ 2 / (2 * 1 ^ 2)) = 1 := by
    norm_num
  rw [hrhs]
  show gaussian_basis 0 0 1 ≠ 1
  rw [gaussian_basis_center 0 1]
  have h2pi : (1 : ℝ) < 2 * Real.pi := by nlinarith [Real.pi_gt_three]
  have hs : (1 : ℝ) < Real.sqrt (2 * Real.pi) := by
    rw [show (1 : ℝ) = Real.sqrt 1 from Real.sqrt_one.symm]
    exact Real.sqrt_lt_sqrt (by norm_num) h2pi
  have hlt : 1 / ((1 : ℝ) * Real.sqrt (2 * Real.pi)) < 1 := by
    rw [one_mul, div_lt_one (lt_trans one_pos hs)]
    exact hs
  exact ne_of_lt hlt

/-! ## Sum and zip helper lemmas -/

theorem sum_map_eq_range_sum {α M : Type} [AddCommMonoid M] (l : List α) (f : α → M)
    (d : α) : (l.map f).sum = ∑ i ∈ Finset.range l.length, f (l.getD i d) := by
  induction l with
  | nil => simp
  | cons a l ih =>
    rw [List.map_cons, List.sum_cons, List.length_cons, Finset.sum_range_succ']
    simp only [List.getD_cons_succ, List.getD_cons_zero]
    rw [← ih]
    exact add_comm _ _

theorem sum_range_getD (t : List ℝ) : ∑ i ∈ Finset.range t.length, t.getD i 0 = t.sum := by
  have h := sum_map_eq_range_sum t id 0
  simpa using h.symm

theorem zip_map_sum {α β M : Type} [AddCommMonoid M] (t : List α) (ms : List β)
    (h : t.length = ms.length) (F : α → β → M) (d1 : α) (d2 : β) :
    ((t.zip ms).map (fun p => F p.1 p.2)).sum
      = ∑ i ∈ Finset.range t.length, F (t.getD i d1) (ms.getD i d2) := by
  induction t generalizing ms with
  | nil => simp
  | cons a t ih =>
    cases ms with
    | nil => simp at h
    | cons b ms =>
      rw [List.zip_cons_cons, List.map_cons, List.sum_cons, List.length_cons,
        Finset.sum_range_succ']
      simp only [List.getD_cons_succ, List.getD_cons_zero]
      rw [← ih ms (by simpa using h)]
      exact add_comm _ _

theorem getD_zipWith {α β γ : Type} (f : α → β → γ) (l1 : List α) (l2 : List β) (k : ℕ)
    (h1 : k < l1.length) (h2 : k < l2.length) (d : γ) (d1 : α) (d2 : β) :
    (List.zipWith f l1 l2).getD k d = f (l1.getD k d1) (l2.getD k d2) := by
  induction l1 generalizing l2 k with
  | nil => simp at h1
  | cons a l ih =>
    cases l2 with
    | nil => simp at h2
    | cons b l2 =>
      cases k with
      | zero => rfl
      | succ k =>
        simp only [List.zipWith_cons_cons, List.getD_cons_succ]
        exact ih l2 k (by simpa using h1) (by simpa using h2)

theorem dot_nil {α : Type} [NonUnitalNonAssocSemiring α] (u : List α) :
    dot ([] : List α) u = 0 := rfl

/-! ## Claim C1: the log joint density -/

/-- C1: the log joint density equals the log density of
`Normal(0, sigma_prior)` at `w0`, plus the log density of
`Normal(0, sigma_prior)` at each component of `w`, plus the sum over
observations `i` of the log density of `Normal(w0 + w · Phi_i, sigma_obs)`
at `t_i` (the notebook's defaults are `sigma_prior = 10`,
`sigma_obs = 0.3`). -/
theorem log_joint_spec (sp so : ℝ) (Phi : List (List ℝ)) (t : List ℝ) (w0 : ℝ)
    (w : List ℝ) (hlen : t.length = Phi.length) :
    log_joint sp so Phi t w0 w
      = logNormPdf 0 sp w0
        + (∑ j ∈ Finset.range w.length, logNormPdf 0 sp (w.getD j 0))
        + ∑ i ∈ Finset.range t.length,
            logNormPdf (w0 + dot w (Phi.getD i [])) so (t.getD i 0) := by
  unfold log_joint
  rw [sum_map_eq_range_sum w (fun wj => logNormPdf 0 sp wj) 0]
  have hms : t.length = (Phi.map (fun row => w0 + dot w row)).length := by
    rw [List.length_map]
    exact hlen
  rw [zip_map_sum t (Phi.map (fun row => w0 + dot w row)) hms
    (fun ti mi => logNormPdf mi so ti) 0 (w0 + dot w [])]
  congr 1
  refine Finset.sum_congr rfl ?_
  intro i hi
  have hiP : i < Phi.length := by
    rw [← hlen]
    exact Finset.mem_range.mp hi
  rw [getD_map Phi (fun row => w0 + dot w row) i hiP (w0 + dot w []) []]

/-- Witness for C1 at `Phi = [[1]]`, `t = [2]`, `w0 = 4`, `w = [3]`,
`sigma_prior = 10`, `sigma_obs = 3/10`. -/
theorem log_joint_spec_witness :
    ([(2 : ℝ)].length = ([[(1 : ℝ)]] : List (List ℝ)).length) ∧
    log_joint 10 (3 / 10) [[(1 : ℝ)]] [2] 4 [3]
      = logNormPdf 0 10 4
        + (∑ j ∈ Finset.range ([(3 : ℝ)]).length, logNormPdf 0 10 (([(3 : ℝ)]).getD j 0))
        + ∑ i ∈ Finset.range ([(2 : ℝ)]).length,
            logNormPdf (4 + dot [(3 : ℝ)] (([[(1 : ℝ)]] : List (List ℝ)).getD i []))
              (3 / 10) (([(2 : ℝ)]).getD i 0) :=
  ⟨rfl, log_joint_spec 10 (3 / 10) [[(1 : ℝ)]] [2] 4 [3] rfl⟩

/-! ## Claim C4: posterior predictive draws -/

/-- C4: each predictive draw is `Normal(w0 + w · phi_k, sigma_obs)` in
location-scale form (`mean + sigma_obs * z`), and with a single posterior
sample `(w0 = 1, w = [2])`, query design matrix `[[0], [1]]` and
`sigma_obs = 0`, every draw equals `[1, 3]` whatever the noise draws. -/
theorem predictive_sample_spec {α : Type} [CommRing α] (w0 : α) (w : List α)
    (Phi_new : List (List α)) (so : α) (z : List α) (k : ℕ)
    (hk : k < Phi_new.length) (hz : k < z.length) :
    ((predictive_sample w0 w Phi_new so z).getD k 0
        = (w0 + dot w (Phi_new.getD k [])) + so * z.getD k 0) ∧
    ∀ z1 z2 : α, predictive_sample 1 [2] [[0], [1]] 0 [z1, z2] = [1, 3] := by
  constructor
  · unfold predictive_sample
    rw [getD_zipWith _ Phi_new z k hk hz 0 [] 0]
    rfl
  · intro z1 z2
    show [predictive_draw 1 [2] [0] 0 z1, predictive_draw 1 [2] [1] 0 z2] = [1, 3]
    unfold predictive_draw dot
    norm_num

/-- Witness for C4 at `Phi_new = [[0], [1]]`, `z = [10, 20]`, `k = 0`. -/
theorem predictive_sample_spec_witness :
    0 < ([[(0 : ℚ)], [1]] : List (List ℚ)).length ∧ 0 < ([(10 : ℚ), 20]).length ∧
    (((predictive_sample (1 : ℚ) [2] [[0], [1]] (1 / 2) [10, 20]).getD 0 0
        = ((1 : ℚ) + dot [(2 : ℚ)] (([[(0 : ℚ)], [1]] : List (List ℚ)).getD 0 []))
          + (1 / 2) * (([(10 : ℚ), 20]).getD 0 0)) ∧
      ∀ z1 z2 : ℚ, predictive_sample 1 [2] [[0], [1]] 0 [z1, z2] = [1, 3]) :=
  ⟨by simp, by simp,
    predictive_sample_spec 1 [2] [[0], [1]] (1 / 2) [10, 20] 0 (by simp) (by simp)⟩

/-! ## Claim C5: shape invariants -/

/-- C5 (amended): the design matrix has one row per input and one column
per basis argument; each (modelled) posterior draw of `w` has one entry per
design-matrix column; the predictive sample set has one row per predictive
draw, each row having one entry per query input (the code's predictive
array is samples-by-query, so its row count is the draw count, not the
query count). -/
theorem shape_invariants {α β : Type} [NonUnitalNonAssocSemiring α] [Inhabited α]
    (x : List α) (bf : α → β → α) (bf_args : List β) (h : bf_args ≠ [])
    (M : ℕ) (g : ℕ → α) (draws : List ((α × List α) × List α))
    (Phi_new : List (List α)) (so : α)
    (hz : ∀ d ∈ draws, d.2.length = Phi_new.length) :
    (_expand x bf bf_args).length = x.length ∧
    (∀ row ∈ _expand x bf bf_args, row.length = bf_args.length) ∧
    (sampler_w_draw M g).length = M ∧
    (posterior_predictive draws Phi_new so).length = draws.length ∧
    (∀ row ∈ posterior_predictive draws Phi_new so, row.length = Phi_new.length) := by
  rw [_expand_eq_rows x bf bf_args h]
  refine ⟨List.length_map _ _, ?_, ?_, List.length_map _ _, ?_⟩
  · intro row hrow
    obtain ⟨xi, _, rfl⟩ := List.mem_map.mp hrow
    exact List.length_map _ _
  · unfold sampler_w_draw
    rw [List.length_map, List.length_range]
  · intro row hrow
    obtain ⟨dr, hd, rfl⟩ := List.mem_map.mp hrow
    unfold predictive_sample
    rw [List.length_zipWith, hz dr hd, Nat.min_self]

/-- Witness for C5 over `ℤ` with one input, one basis argument, one draw. -/
theorem shape_invariants_witness :
    ([1] : List ℕ) ≠ [] ∧
    (∀ d ∈ [(((1 : ℤ), [2]), [0])], d.2.length = ([[(5 : ℤ)]] : List (List ℤ)).length) ∧
    ((_expand [(2 : ℤ)] polynomial_basis [1]).length = ([(2 : ℤ)]).length ∧
      (∀ row ∈ _expand [(2 : ℤ)] polynomial_basis [1], row.length = ([1] : List ℕ).length) ∧
      (sampler_w_draw 1 (fun _ => (0 : ℤ))).length = 1 ∧
      (posterior_predictive [(((1 : ℤ), [2]), [0])] [[5]] 0).length
        = ([(((1 : ℤ), [2]), [0])]).length ∧
      (∀ row ∈ posterior_predictive [(((1 : ℤ), [2]), [0])] [[5]] 0,
        row.length = ([[(5 : ℤ)]] : List (List ℤ)).length)) :=
  ⟨by decide, by decide,
    shape_invariants [(2 : ℤ)] polynomial_basis [1] (by decide) 1 (fun _ => (0 : ℤ))
      [(((1 : ℤ), [2]), [0])] [[5]] 0 (by decide)⟩

/-- Counterexample to C5 as stated: with two predictive draws and a single
query point, the predictive sample set has 2 rows (one per draw), not 1
(the query-input count): the code's array is samples-by-query. -/
theorem posterior_predictive_rows_counterexample :
    (posterior_predictive [(((1 : ℤ), [2]), [0]), (((1 : ℤ), [2]), [0])] [[5]] 0).length
      ≠ ([[(5 : ℤ)]] : List (List ℤ)).length := by decide

/-! ## Claim C6: determinism under a fixed seed -/

/-- C6: the (spec-modelled) sampler takes an explicit random seed, and two
runs with the same seed, the same configuration and the same data produce
identical posterior sample sets. -/
theorem pm_sample_deterministic {σ : Type} (step : σ → ℕ → σ) (cfg1 cfg2 : SamplerConfig)
    (init1 init2 : σ) (seed1 seed2 : ℕ) (hc : cfg1 = cfg2) (hi : init1 = init2)
    (hs : seed1 = seed2) :
    pm_sample step cfg1 init1 seed1 = pm_sample step cfg2 init2 seed2 := by
  rw [hc, hi, hs]

/-- Witness for C6 with a concrete kernel, configuration and seed. -/
theorem pm_sample_deterministic_witness :
    (⟨1, 2⟩ : SamplerConfig) = ⟨1, 2⟩ ∧ (0 : ℕ) = 0 ∧ (42 : ℕ) = 42 ∧
    pm_sample (fun st r => st + r) ⟨1, 2⟩ (0 : ℕ) 42
      = pm_sample (fun st r => st + r) ⟨1, 2⟩ (0 : ℕ) 42 :=
  ⟨rfl, rfl, rfl,
    pm_sample_deterministic (fun st r => st + r) ⟨1, 2⟩ ⟨1, 2⟩ 0 0 42 42 rfl rfl rfl⟩

/-! ## Claim C7: expansion failure behavior -/

theorem expandE_isOk {α β : Type} [Inhabited α] (x : List α) (bf : α → β → α)
    (bf_args : List β) : isOk (expandE x bf bf_args) = true ↔ bf_args ≠ [] := by
  cases bf_args with
  | nil => simp [expandE, stack_axis1E, isOk]
  | cons a l => simp [expandE, stack_axis1E, isOk]

/-- C7 (amended): expansion fails exactly when the basis-argument list is
empty — `degree < 1` for the polynomial family, empty centers for the
Gaussian family (numpy's `np.stack` of an empty list raises); a
non-positive bandwidth is NOT rejected and expansion succeeds (producing
NaN columns in the real code). When failure occurs it is in the expansion
itself, before any model is built or any sampling starts. -/
theorem expand_error_spec {α : Type} [Monoid α] [Inhabited α] (x : List α) (degree : ℕ)
    (xr mus : List ℝ) (b : ℝ) :
    (isOk (expand_polynomialE x degree) = true ↔ 1 ≤ degree) ∧
    (isOk (expand_gaussianE xr mus b) = true ↔ mus ≠ []) := by
  constructor
  · unfold expand_polynomialE
    rw [expandE_isOk]
    constructor
    · intro h
      by_contra hd
      have hdeg : degree = 0 := by omega
      rw [hdeg] at h
      exact h rfl
    · intro h hnil
      have hl := congrArg List.length hnil
      rw [List.length_range'] at hl
      simp at hl
      omega
  · unfold expand_gaussianE
    exact expandE_isOk xr _ mus

/-- Counterexample to C7 as stated: bandwidth `-1 ≤ 0` with a nonempty
center list does not fail — the expansion returns a design matrix. -/
theorem bandwidth_not_validated_counterexample :
    (-1 : ℝ) ≤ 0 ∧
    expand_gaussianE [0] [0] (-1) = Except.ok [[gaussian_basis 0 0 (-1)]] :=
  ⟨by norm_num, rfl⟩

/-! ## Claim C8: the degenerate case M = 0 -/

theorem log_joint_M0_eq (sp so : ℝ) (Phi : List (List ℝ)) (t : List ℝ) (w0 : ℝ)
    (hlen : t.length = Phi.length) :
    log_joint sp so Phi t w0 []
      = logNormPdf 0 sp w0
        + ∑ i ∈ Finset.range t.length, logNormPdf w0 so (t.getD i 0) := by
  unfold log_joint
  have hms : t.length = (Phi.map (fun row => w0 + dot ([] : List ℝ) row)).length := by
    rw [List.length_map]
    exact hlen
  rw [zip_map_sum t (Phi.map (fun row => w0 + dot ([] : List ℝ) row)) hms
    (fun ti mi => logNormPdf mi so ti) 0 (w0 + dot ([] : List ℝ) [])]
  rw [show (([] : List ℝ).map (fun wj => logNormPdf 0 sp wj)).sum = 0 from rfl, add_zero]
  congr 1
  refine Finset.sum_congr rfl ?_
  intro i hi
  have hiP : i < Phi.length := by
    rw [← hlen]
    exact Finset.mem_range.mp hi
  rw [getD_map Phi (fun row => w0 + dot ([] : List ℝ) row) i hiP
    (w0 + dot ([] : List ℝ) []) []]
  rw [dot_nil, add_zero]

theorem logNormPdf_diff (so v w0 ti : ℝ) :
    logNormPdf v so ti - logNormPdf w0 so ti
      = (w0 ^ 2 - v ^ 2) / (2 * so ^ 2) - ti * (2 * (w0 - v) / (2 * so ^ 2)) := by
  unfold logNormPdf
  ring

theorem sum_logNormPdf_diff (so v w0 : ℝ) (t : List ℝ) :
    (∑ i ∈ Finset.range t.length, logNormPdf v so (t.getD i 0))
      - (∑ i ∈ Finset.range t.length, logNormPdf w0 so (t.getD i 0))
      = (t.length : ℝ) * ((w0 ^ 2 - v ^ 2) / (2 * so ^ 2))
        - t.sum * (2 * (w0 - v) / (2 * so ^ 2)) := by
  rw [← Finset.sum_sub_distrib]
  have hpt : ∀ i ∈ Finset.range t.length,
      logNormPdf v so (t.getD i 0) - logNormPdf w0 so (t.getD i 0)
        = (w0 ^ 2 - v ^ 2) / (2 * so ^ 2)
          - t.getD i 0 * (2 * (w0 - v) / (2 * so ^ 2)) :=
    fun i _ => logNormPdf_diff so v w0 (t.getD i 0)
  rw [Finset.sum_congr rfl hpt, Finset.sum_sub_distrib, Finset.sum_const,
    Finset.card_range, ← Finset.sum_mul, sum_range_getD]
  simp [nsmul_eq_mul]

theorem quad_max_key (sp so S N w0 : ℝ) (hsp : 0 < sp) (hso : 0 < so) (hN : 0 ≤ N) :
    0 ≤ (w0 ^ 2 - (sp ^ 2 * S / (so ^ 2 + N * sp ^ 2)) ^ 2) / (2 * sp ^ 2)
      + (N * ((w0 ^ 2 - (sp ^ 2 * S / (so ^ 2 + N * sp ^ 2)) ^ 2) / (2 * so ^ 2))
        - S * (2 * (w0 - sp ^ 2 * S / (so ^ 2 + N * sp ^ 2)) / (2 * so ^ 2))) := by
  have hD : (0 : ℝ) < so ^ 2 + N * sp ^ 2 := by positivity
  have hsp0 : sp ≠ 0 := ne_of_gt hsp
  have hso0 : so ≠ 0 := ne_of_gt hso
  have hD0 : so ^ 2 + N * sp ^ 2 ≠ 0 := ne_of_gt hD
  have key : (w0 ^ 2 - (sp ^ 2 * S / (so ^ 2 + N * sp ^ 2)) ^ 2) / (2 * sp ^ 2)
      + (N * ((w0 ^ 2 - (sp ^ 2 * S / (so ^ 2 + N * sp ^ 2)) ^ 2) / (2 * so ^ 2))
        - S * (2 * (w0 - sp ^ 2 * S / (so ^ 2 + N * sp ^ 2)) / (2 * so ^ 2)))
      = (so ^ 2 + N * sp ^ 2) * (w0 - sp ^ 2 * S / (so ^ 2 + N * sp ^ 2)) ^ 2
          / (2 * sp ^ 2 * so ^ 2) := by
    field_simp
    ring
  rw [key]
  positivity

theorem log_joint_M0_le (sp so : ℝ) (Phi : List (List ℝ)) (t : List ℝ)
    (hlen : t.length = Phi.length) (hsp : 0 < sp) (hso : 0 < so) (w0 : ℝ) :
    log_joint sp so Phi t w0 [] ≤ log_joint sp so Phi t (w_star sp so t) [] := by
  rw [log_joint_M0_eq sp so Phi t w0 hlen,
    log_joint_M0_eq sp so Phi t (w_star sp so t) hlen]
  have hprior : logNormPdf 0 sp (w_star sp so t) - logNormPdf 0 sp w0
      = (w0 ^ 2 - (w_star sp so t) ^ 2) / (2 * sp ^ 2) := by
    unfold logNormPdf
    ring
  have hsum := sum_logNormPdf_diff so (w_star sp so t) w0 t
  have hkey := quad_max_key sp so t.sum (t.length : ℝ) w0 hsp hso (Nat.cast_nonneg _)
  unfold w_star at *
  linarith [hprior, hsum, hkey]

theorem w_star_tendsto (so : ℝ) (t : List ℝ) (ht : t ≠ []) :
    Filter.Tendsto (fun sp => w_star sp so t) Filter.atTop
      (nhds (t.sum / (t.length : ℝ))) := by
  have hlen : 0 < t.length := List.length_pos.mpr ht
  have hN0 : (0 : ℝ) < (t.length : ℝ) := by exact_mod_cast hlen
  have h1 : Filter.Tendsto (fun sp : ℝ => sp ^ 2) Filter.atTop Filter.atTop :=
    Filter.tendsto_pow_atTop (by norm_num)
  have h0 : Filter.Tendsto (fun sp : ℝ => so ^ 2 / sp ^ 2) Filter.atTop (nhds 0) := by
    have h2 := h1.inv_tendsto_atTop
    have h3 := h2.const_mul (so ^ 2)
    simpa [div_eq_mul_inv] using h3
  have hden : Filter.Tendsto (fun sp : ℝ => so ^ 2 / sp ^ 2 + (t.length : ℝ))
      Filter.atTop (nhds ((t.length : ℝ))) := by
    have h4 := h0.add_const ((t.length : ℝ))
    simpa using h4
  have hq : Filter.Tendsto (fun sp : ℝ => t.sum / (so ^ 2 / sp ^ 2 + (t.length : ℝ)))
      Filter.atTop (nhds (t.sum / (t.length : ℝ))) :=
    Filter.Tendsto.div tendsto_const_nhds hden (ne_of_gt hN0)
  refine Filter.Tendsto.congr' ?_ hq
  filter_upwards [Filter.eventually_ge_atTop (1 : ℝ)] with sp hsp
  have hsp0 : sp ≠ 0 := ne_of_gt (lt_of_lt_of_le one_pos hsp)
  have hd1 : so ^ 2 / sp ^ 2 + (t.length : ℝ) ≠ 0 := by positivity
  have hd2 : so ^ 2 + (t.length : ℝ) * sp ^ 2 ≠ 0 := by positivity
  unfold w_star
  field_simp
  ring

/-- C8: with `M = 0` (empty basis set, `w = []`) the log joint reduces to a
model over `w0` alone; over `w0` it is maximized at `w_star` (the exact
posterior is Gaussian, so `w_star` is also the posterior mean), and
`w_star` tends to `mean(t)` as `sigma_prior → ∞`. All embedded functions
are total, so the zero-length `w` causes no indexing error. -/
theorem log_joint_M0_spec (so : ℝ) (Phi : List (List ℝ)) (t : List ℝ)
    (hlen : t.length = Phi.length) (hso : 0 < so) (ht : t ≠ []) :
    (∀ sp w0 : ℝ, log_joint sp so Phi t w0 []
        = logNormPdf 0 sp w0
          + ∑ i ∈ Finset.range t.length, logNormPdf w0 so (t.getD i 0)) ∧
    (∀ sp : ℝ, 0 < sp → ∀ w0 : ℝ,
        log_joint sp so Phi t w0 [] ≤ log_joint sp so Phi t (w_star sp so t) []) ∧
    Filter.Tendsto (fun sp => w_star sp so t) Filter.atTop
      (nhds (t.sum / (t.length : ℝ))) :=
  ⟨fun sp w0 => log_joint_M0_eq sp so Phi t w0 hlen,
   fun sp hsp w0 => log_joint_M0_le sp so Phi t hlen hsp hso w0,
   w_star_tendsto so t ht⟩

/-- Witness for C8 at `Phi = [[]]` (one row, zero columns), `t = [5]`,
`sigma_obs = 1`. -/
theorem log_joint_M0_spec_witness :
    ([(5 : ℝ)].length = ([[]] : List (List ℝ)).length) ∧ (0 : ℝ) < 1 ∧
    ([(5 : ℝ)] ≠ []) ∧
    ((∀ sp w0 : ℝ, log_joint sp 1 [[]] [(5 : ℝ)] w0 []
        = logNormPdf 0 sp w0
          + ∑ i ∈ Finset.range ([(5 : ℝ)]).length, logNormPdf w0 1 (([(5 : ℝ)]).getD i 0)) ∧
      (∀ sp : ℝ, 0 < sp → ∀ w0 : ℝ,
        log_joint sp 1 [[]] [(5 : ℝ)] w0 []
          ≤ log_joint sp 1 [[]] [(5 : ℝ)] (w_star sp 1 [(5 : ℝ)]) []) ∧
      Filter.Tendsto (fun sp => w_star sp 1 [(5 : ℝ)]) Filter.atTop
        (nhds (([(5 : ℝ)]).sum / (([(5 : ℝ)]).length : ℝ)))) :=
  ⟨rfl, one_pos, by simp, log_joint_M0_spec 1 [[]] [(5 : ℝ)] rfl one_pos (by simp)⟩

/-! ## Claim C9: mutation of the shared design matrix -/

/-- Counterexample to C9 as stated: the prediction step mutates
`Phi_shared` — after it, the shared design matrix is no longer the training
design matrix that produced the posterior samples. -/
theorem shared_phi_mutated_counterexample :
    (prediction_step ⟨expand_polynomial [(2 : ℤ)] 1, [5]⟩ [3] 1).Phi_shared
      ≠ ((⟨expand_polynomial [(2 : ℤ)] 1, [5]⟩ : SharedState ℤ)).Phi_shared := by
  decide

/-- C9 (amended): sampling reads the shared state and mutates nothing, and
the targets `t` are never mutated; but the prediction step replaces
`Phi_shared` with the expansion of the query inputs (the notebook's
`Phi_shared.set_value(expand(x_test))`), so after prediction the model's
design matrix is the query matrix, not the training matrix. -/
theorem shared_state_frame {α : Type} [Monoid α] [Inhabited α] (s : SharedState α)
    (x_test : List α) (degree : ℕ) :
    pm_sample_effect s = s ∧
    (prediction_step s x_test degree).t = s.t ∧
    (prediction_step s x_test degree).Phi_shared = expand_polynomial x_test degree :=
  ⟨rfl, rfl, rfl⟩

end BLR
